import Mathlib

/-!
Verification development for the linked-list big-integer program (p2.cpp)
and, where the repository has no code for a spec component, models built
from the specification text.

The big number is a list of limbs ("chunks"), least-significant first,
exactly as the linked list stores them (head = least significant).
Machine arithmetic on uint64_t values is modelled on Nat with an explicit
reduction modulo 2^64 where the C++ sum can wrap.
-/

/-- Radix constant used by the carry and borrow arithmetic in
LargeNumber::operator+ and operator- : the literal 1000000000000000000ULL
from the source, which is 10^18 (eighteen zeros). -/
def R : ℕ := 1000000000000000000

/-- Size of the uint64_t value space; uint64_t addition wraps modulo this. -/
def W64 : ℕ := 18446744073709551616

/-- Value of a limb list in radix r, least-significant limb first:
value = limb0 + r * (limb1 + r * ...). -/
def valueR (r : ℕ) : List ℕ → ℕ
  | [] => 0
  | x :: xs => x + r * valueR r xs

/-- One pass of the addition loop of LargeNumber::operator+ .
State: the remaining limbs of both operands and the carry; the loop runs
while either list is nonempty or the carry is nonzero.  Each iteration
computes sum = valueA + valueB + carry in uint64_t (hence mod 2^64),
emits sum % R and continues with carry = sum / R.  The fuel argument
bounds the number of iterations modelled; the result is none when the
loop has not reached its exit condition within the given fuel. -/
def addLoop : ℕ → List ℕ → List ℕ → ℕ → Option (List ℕ)
  | 0, a, b, c => if a = [] ∧ b = [] ∧ c = 0 then some [] else none
  | f + 1, a, b, c =>
    if a = [] ∧ b = [] ∧ c = 0 then some []
    else
      Option.map (fun r => ((a.headD 0 + b.headD 0 + c) % W64) % R :: r)
        (addLoop f a.tail b.tail (((a.headD 0 + b.headD 0 + c) % W64) / R))

/-- Addition of two limb lists (LargeNumber::operator+), starting with
carry 0.  The fuel max + 2 is always sufficient (proved below), so the
wrapper returns some result for every pair of inputs. -/
def add (a b : List ℕ) : Option (List ℕ) :=
  addLoop (max a.length b.length + 2) a b 0

/-- One pass of the subtraction loop of LargeNumber::operator- .
State: remaining limbs and the borrow (an int64_t holding 0 or 1); the
loop runs while either list is nonempty or the borrow is nonzero.  Each
iteration computes diff = valueA - valueB - borrow in int64_t; if diff
is negative it adds R and sets borrow to 1, else borrow becomes 0; the
resulting diff is emitted as the next limb.  When the minuend is smaller
than the subtrahend the loop never reaches its exit condition, which the
fuel argument makes observable: the result is none for every fuel. -/
def subLoop : ℕ → List ℕ → List ℕ → ℕ → Option (List ℕ)
  | 0, a, b, br => if a = [] ∧ b = [] ∧ br = 0 then some [] else none
  | f + 1, a, b, br =>
    if a = [] ∧ b = [] ∧ br = 0 then some []
    else if ((a.headD 0 : ℤ) - (b.headD 0 : ℤ) - (br : ℤ)) < 0 then
      Option.map (fun r => ((a.headD 0 : ℤ) - (b.headD 0 : ℤ) - (br : ℤ) + (R : ℤ)).toNat :: r)
        (subLoop f a.tail b.tail 1)
    else
      Option.map (fun r => ((a.headD 0 : ℤ) - (b.headD 0 : ℤ) - (br : ℤ)).toNat :: r)
        (subLoop f a.tail b.tail 0)

/-- Subtraction of two limb lists (LargeNumber::operator-), starting with
borrow 0.  Terminating runs of the loop take exactly max(len a, len b)
iterations, so this fuel is sufficient whenever the loop terminates. -/
def subtract (a b : List ℕ) : Option (List ℕ) :=
  subLoop (max a.length b.length + 1) a b 0

/-- The subtraction loop never reaches its exit condition: no amount of
fuel produces a result.  This is how non-termination of the C++ while
loop is expressed in the fuel model. -/
def subDiverges (a b : List ℕ) : Prop :=
  ∀ fuel, subLoop fuel a b 0 = none

/-- Normalization invariant from the data model: no most-significant zero
limb, except that zero itself may be the single-limb list with limb 0
(the form parse produces for the string "0") or the empty list. -/
def normalized (l : List ℕ) : Prop :=
  l.getLast? ≠ some 0 ∨ l = [0]

/-- Digit test used when modelling stoull: a character between '0' and '9'.
This is the character class stoull consumes. -/
def isDig (c : Char) : Bool := decide (48 ≤ c.toNat ∧ c.toNat ≤ 57)

/-- Numeric value of a digit character. -/
def charVal (c : Char) : ℕ := c.toNat - 48

/-- Value of the longest digit prefix of a character list, folded onto an
accumulator; conversion stops at the first non-digit character, exactly
as stoull does after a successful start. -/
def digPrefixVal : List Char → ℕ → ℕ
  | [], acc => acc
  | c :: cs, acc => if isDig c then digPrefixVal cs (acc * 10 + charVal c) else acc

/-- Digit part of stoull after the optional sign: at least one digit is
required (else std::invalid_argument); conversion takes the longest
digit prefix and silently ignores the remainder of the chunk. -/
def stoullDigits : List Char → Option ℕ
  | [] => none
  | c :: cs => if isDig c then some (digPrefixVal (c :: cs) 0) else none

/-- Model of std::stoull on a chunk string, base 10, following strtoull
semantics on a whitespace-free token: an optional single leading '+' or
'-' sign, then at least one digit; the longest digit prefix is
converted and the rest of the chunk is silently ignored; a '-' sign
negates the converted value in unsigned 64-bit arithmetic (modulo
2^64), so a negative-looking chunk converts silently to a wrapped
value.  If no digit follows the optional sign, stoull throws
std::invalid_argument, which the program does not catch.  Chunks here
have at most 19 characters, hence at most 19 digits (18 after a sign),
so the converted digit value stays below 2^64 and stoull's out-of-range
case cannot arise.  Leading whitespace is not modelled: the chunks come
from a cin >> string token, which contains none. -/
def stoullM : List Char → Option ℕ
  | [] => none
  | c :: cs =>
    if c = '-' then
      Option.map (fun v => (W64 - v % W64) % W64) (stoullDigits cs)
    else if c = '+' then stoullDigits cs
    else stoullDigits (c :: cs)

/-- Error observed when a chunk cannot be converted: the uncaught
std::invalid_argument thrown by stoull. -/
inductive ParseErr where
  | invalidArgument
deriving DecidableEq

instance {ε α : Type} [DecidableEq ε] [DecidableEq α] : DecidableEq (Except ε α)
  | .ok a, .ok b =>
    match decEq a b with
    | isTrue h => isTrue (congrArg Except.ok h)
    | isFalse h => isFalse fun k => h (Except.ok.inj k)
  | .error e, .error g =>
    match decEq e g with
    | isTrue h => isTrue (congrArg Except.error h)
    | isFalse h => isFalse fun k => h (Except.error.inj k)
  | .ok _, .error _ => isFalse fun k => Except.noConfusion k
  | .error _, .ok _ => isFalse fun k => Except.noConfusion k

/-- Chunking loop of splitNumberIntoChunks with maxSize = 19 (the only
value the program passes): the loop takes the last min(length, 19)
characters as the next chunk, pushing chunks least-significant first,
and repeats on the remaining prefix.  The fuel argument makes the
recursion structural; every step drops at least one character, so fuel
equal to the initial length never runs out. -/
def chunksLSAux : ℕ → List Char → List (List Char)
  | 0, _ => []
  | f + 1, cs =>
    if cs = [] then []
    else
      cs.drop (cs.length - min cs.length 19) ::
        chunksLSAux f (cs.take (cs.length - min cs.length 19))

/-- Chunk list of a decimal string, least-significant chunk first. -/
def chunksLS (cs : List Char) : List (List Char) :=
  chunksLSAux cs.length cs

/-- Conversion loop over the chunks: each chunk string goes through
stoull and the values are collected least-significant first, as the
vector push_back order and the addChunk loop in main do.  An stoull
failure aborts the whole conversion (the exception is not caught). -/
def chunksToLimbs : List (List Char) → Except ParseErr (List ℕ)
  | [] => .ok []
  | ch :: rest =>
    match stoullM ch with
    | none => .error .invalidArgument
    | some v => (chunksToLimbs rest).map (fun l => v :: l)

/-- Decimal parsing as the program performs it: splitNumberIntoChunks on
the input string followed by the chunk-to-limb conversion. -/
def splitNumberIntoChunks (cs : List Char) : Except ParseErr (List ℕ) :=
  chunksToLimbs (chunksLS cs)

/-- Little-endian decimal digit characters of n, written with explicit
fuel so that it evaluates by kernel reduction; fuel n suffices since a
positive number has at most n decimal digits. -/
def natCharsAux : ℕ → ℕ → List Char
  | 0, _ => []
  | _, 0 => []
  | f + 1, n + 1 => Char.ofNat (48 + (n + 1) % 10) :: natCharsAux f ((n + 1) / 10)

/-- Decimal rendering of one limb, as cout << value prints a uint64_t:
most-significant digit first, no zero padding. -/
def natChars (n : ℕ) : List Char :=
  if n = 0 then ['0'] else (natCharsAux n n).reverse

/-- Output of LargeNumber::printRecursive: the list is walked to the end
first, so limbs print most-significant first, each limb rendered by
cout << value followed by cout << " " - one space after every limb,
with no zero padding of inner limbs. -/
def printRecursive : List ℕ → List Char
  | [] => []
  | x :: xs => printRecursive xs ++ natChars x ++ [' ']

/-- Value of an all-digit character list read as a decimal numeral,
most-significant digit first. -/
def digitsVal (cs : List Char) : ℕ :=
  cs.foldl (fun n c => n * 10 + charVal c) 0

/-- Modelled from the spec: the repository contains no primality code
(the second source file is an unrelated CPU-scheduling simulation), so
the Miller-Rabin engine of spec section 4.4 is modelled from the
specification text.  Result of one primality query. -/
inductive PrimalityResult where
  | Prime
  | ProbablyPrime
  | Composite
deriving DecidableEq

/-- Modelled from the spec: error kinds of the Miller-Rabin engine.
InvalidInput concerns an empty or unparsable subject and cannot arise in
this value-level model; InvalidConfiguration rejects a non-positive
trial count. -/
inductive MRError where
  | InvalidInput
  | InvalidConfiguration
deriving DecidableEq

/-- Modelled from the spec: factoring loop for m = 2^s * d with d odd,
by repeated halving, written with fuel so that it evaluates by kernel
reduction; each halving at least halves m, so fuel m never runs out. -/
def factorTwosAux : ℕ → ℕ → ℕ × ℕ
  | 0, _ => (0, 0)
  | f + 1, m =>
    if m = 0 then (0, 0)
    else if m % 2 = 0 then
      ((factorTwosAux f (m / 2)).1 + 1, (factorTwosAux f (m / 2)).2)
    else (0, m)

/-- Modelled from the spec: factor m as 2^s * d with d odd; returns
(s, d). -/
def factorTwos (m : ℕ) : ℕ × ℕ :=
  factorTwosAux m m

/-- Modelled from the spec: the inner squaring loop of one Miller-Rabin
trial, repeated up to the given count; succeeds when x reaches n - 1. -/
def innerSquares (n x : ℕ) : ℕ → Bool
  | 0 => false
  | t + 1 =>
    let y := x * x % n
    if y = n - 1 then true else innerSquares n y t

/-- Modelled from the spec: one Miller-Rabin trial with base a, where
n - 1 = 2^s * d and d is odd: compute x = a^d mod n; the trial passes if
x is 1 or n - 1, or if one of up to s - 1 squarings reaches n - 1. -/
def millerTrial (n d s a : ℕ) : Bool :=
  let x := a ^ d % n
  if x = 1 ∨ x = n - 1 then true else innerSquares n x (s - 1)

/-- Modelled from the spec: the k-trial loop, drawing bases from the
injected source (spec section 9 treats the random generator as an
injected dependency); a failed trial is an immediate composite verdict. -/
def trialsLoop (n d s : ℕ) (bases : ℕ → ℕ) : ℕ → Bool
  | 0 => true
  | i + 1 => if millerTrial n d s (bases i) then trialsLoop n d s bases i else false

/-- Modelled from the spec: is_probably_prime(n, k).  A trial count
below 1 is InvalidConfiguration; n equal to 2 or 3 is definitively
Prime; n at most 1 or even n is definitively Composite; otherwise k
randomized trials decide between ProbablyPrime and Composite. -/
def is_probably_prime (n k : ℕ) (bases : ℕ → ℕ) : Except MRError PrimalityResult :=
  if k < 1 then .error .InvalidConfiguration
  else if n = 2 ∨ n = 3 then .ok .Prime
  else if n ≤ 1 ∨ n % 2 = 0 then .ok .Composite
  else if trialsLoop n (factorTwos (n - 1)).2 (factorTwos (n - 1)).1 bases k then
    .ok .ProbablyPrime
  else .ok .Composite

/-! Basic facts about the constants and the value function. -/

theorem R_pos : 0 < R := by norm_num [R]

theorem one_lt_R : 1 < R := by norm_num [R]

theorem R_lt_W64 : R < W64 := by norm_num [R, W64]

theorem two_R_le_W64 : 2 * R ≤ W64 := by norm_num [R, W64]

theorem valueR_nil : valueR R [] = 0 := rfl

theorem valueR_cons (x : ℕ) (xs : List ℕ) :
    valueR R (x :: xs) = x + R * valueR R xs := rfl

theorem valueR_headD_tail (a : List ℕ) :
    valueR R a = a.headD 0 + R * valueR R a.tail := by
  cases a <;> simp [valueR]

theorem headD_lt_R (a : List ℕ) (h : ∀ x ∈ a, x < R) : a.headD 0 < R := by
  cases a with
  | nil => exact R_pos
  | cons x xs => exact h x (by simp)

theorem tail_bound (a : List ℕ) (h : ∀ x ∈ a, x < R) : ∀ x ∈ a.tail, x < R :=
  fun x hx => h x (List.mem_of_mem_tail hx)

theorem max_tail_length (a b : List ℕ) (h : ¬(a = [] ∧ b = [])) :
    max a.tail.length b.tail.length + 1 = max a.length b.length := by
  cases a <;> cases b
  · exact absurd ⟨rfl, rfl⟩ h
  all_goals
    simp only [List.tail_cons, List.tail_nil, List.length_cons, List.length_nil]
    omega

theorem getLast?_cons_of_ne_nil (x : ℕ) (r : List ℕ) (h : r ≠ []) :
    (x :: r).getLast? = r.getLast? := by
  cases r with
  | nil => exact absurd rfl h
  | cons y ys => exact List.getLast?_cons_cons

/-! Unfolding equations for the loops. -/

theorem addLoop_exit (fuel : ℕ) : addLoop fuel [] [] 0 = some [] := by
  cases fuel <;> simp [addLoop]

theorem addLoop_step (f : ℕ) (a b : List ℕ) (c : ℕ) (h : ¬(a = [] ∧ b = [] ∧ c = 0)) :
    addLoop (f + 1) a b c =
      Option.map (fun r => ((a.headD 0 + b.headD 0 + c) % W64) % R :: r)
        (addLoop f a.tail b.tail (((a.headD 0 + b.headD 0 + c) % W64) / R)) := by
  rw [addLoop]; rw [if_neg h]

theorem subLoop_exit (fuel : ℕ) : subLoop fuel [] [] 0 = some [] := by
  cases fuel <;> simp [subLoop]

theorem subLoop_zero (a : List ℕ) (b : List ℕ) (br : ℕ)
    (h : ¬(a = [] ∧ b = [] ∧ br = 0)) : subLoop 0 a b br = none := by
  rw [subLoop]; rw [if_neg h]

theorem subLoop_step_borrow (f : ℕ) (a b : List ℕ) (br : ℕ)
    (h : ¬(a = [] ∧ b = [] ∧ br = 0))
    (hlt : (a.headD 0 : ℤ) - (b.headD 0 : ℤ) - (br : ℤ) < 0) :
    subLoop (f + 1) a b br =
      Option.map (fun r => ((a.headD 0 : ℤ) - (b.headD 0 : ℤ) - (br : ℤ) + (R : ℤ)).toNat :: r)
        (subLoop f a.tail b.tail 1) := by
  rw [subLoop]; rw [if_neg h, if_pos hlt]

theorem subLoop_step_noborrow (f : ℕ) (a b : List ℕ) (br : ℕ)
    (h : ¬(a = [] ∧ b = [] ∧ br = 0))
    (hge : ¬((a.headD 0 : ℤ) - (b.headD 0 : ℤ) - (br : ℤ) < 0)) :
    subLoop (f + 1) a b br =
      Option.map (fun r => ((a.headD 0 : ℤ) - (b.headD 0 : ℤ) - (br : ℤ)).toNat :: r)
        (subLoop f a.tail b.tail 0) := by
  rw [subLoop]; rw [if_neg h, if_neg hge]

/-- Soundness of the addition loop on limb lists satisfying the limb
invariant: with carry at most 1 and enough fuel the loop terminates, the
result's value is the sum of the operand values plus the carry, result
limbs satisfy the invariant, the result length is max or max + 1, and a
result longer than max ends in a nonzero limb (the emitted final carry). -/
theorem addLoop_sound : ∀ (fuel : ℕ) (a b : List ℕ) (c : ℕ),
    (∀ x ∈ a, x < R) → (∀ x ∈ b, x < R) → c ≤ 1 →
    max a.length b.length + 2 ≤ fuel →
    ∃ r, addLoop fuel a b c = some r ∧
      valueR R r = valueR R a + valueR R b + c ∧
      (∀ x ∈ r, x < R) ∧
      max a.length b.length ≤ r.length ∧
      r.length ≤ max a.length b.length + 1 ∧
      (max a.length b.length < r.length → r.getLast? ≠ some 0) := by
  intro fuel
  induction fuel with
  | zero => intro a b c _ _ _ hf; omega
  | succ f ih =>
    intro a b c ha hb hc hf
    by_cases hexit : a = [] ∧ b = [] ∧ c = 0
    · obtain ⟨ha0, hb0, hc0⟩ := hexit
      subst ha0; subst hb0; subst hc0
      exact ⟨[], addLoop_exit _, by simp [valueR], by simp, by simp, by simp, by simp⟩
    · have hsum : a.headD 0 + b.headD 0 + c < W64 := by
        have h1 := headD_lt_R a ha
        have h2 := headD_lt_R b hb
        have := two_R_le_W64
        omega
      have hmod : (a.headD 0 + b.headD 0 + c) % W64 = a.headD 0 + b.headD 0 + c :=
        Nat.mod_eq_of_lt hsum
      have hcarry : (a.headD 0 + b.headD 0 + c) / R ≤ 1 := by
        have h1 := headD_lt_R a ha
        have h2 := headD_lt_R b hb
        have hlt2 : (a.headD 0 + b.headD 0 + c) / R < 2 :=
          (Nat.div_lt_iff_lt_mul R_pos).mpr (by omega)
        omega
      by_cases hnil : a = [] ∧ b = []
      · obtain ⟨ha0, hb0⟩ := hnil
        subst ha0; subst hb0
        have hc1 : c = 1 := by
          rcases Nat.lt_or_ge c 1 with h1 | h1
          · exact absurd ⟨rfl, rfl, by omega⟩ hexit
          · omega
        subst hc1
        have heq : addLoop (f + 1) [] [] 1 = some [1] := by
          rw [addLoop_step f [] [] 1 (by simp)]
          simp only [List.headD_nil, List.tail_nil, Nat.zero_add]
          rw [Nat.mod_eq_of_lt (show (1 : ℕ) < W64 by norm_num [W64])]
          rw [Nat.mod_eq_of_lt one_lt_R, Nat.div_eq_of_lt one_lt_R, addLoop_exit]
          rfl
        refine ⟨[1], heq, ?_, ?_, ?_, ?_, ?_⟩
        · simp [valueR]
        · intro x hx
          simp only [List.mem_singleton] at hx
          subst hx
          exact one_lt_R
        · simp
        · simp
        · intro _
          simp only [List.getLast?_singleton]
          intro hcontra
          exact absurd (Option.some.inj hcontra) one_ne_zero
      · rw [addLoop_step f a b c hexit, hmod]
        obtain ⟨r', hr'eq, hr'val, hr'lt, hr'len1, hr'len2, hr'last⟩ :=
          ih a.tail b.tail ((a.headD 0 + b.headD 0 + c) / R)
            (tail_bound a ha) (tail_bound b hb) hcarry
            (by have := max_tail_length a b hnil; omega)
        rw [hr'eq]
        have hmt := max_tail_length a b hnil
        refine ⟨_, rfl, ?_, ?_, ?_, ?_, ?_⟩
        · simp only [valueR_cons, hr'val]
          rw [valueR_headD_tail a, valueR_headD_tail b]
          have hmd := Nat.mod_add_div (a.headD 0 + b.headD 0 + c) R
          have hdist : R * (valueR R a.tail + valueR R b.tail + (a.headD 0 + b.headD 0 + c) / R)
              = R * valueR R a.tail + R * valueR R b.tail
                + R * ((a.headD 0 + b.headD 0 + c) / R) := by ring
          rw [hdist]
          omega
        · intro x hx
          rcases List.mem_cons.mp hx with h1 | h1
          · subst h1; exact Nat.mod_lt _ R_pos
          · exact hr'lt x h1
        · simp only [List.length_cons]; omega
        · simp only [List.length_cons]; omega
        · intro hlong
          simp only [List.length_cons] at hlong
          have hne : r' ≠ [] := by
            intro hcontra
            rw [hcontra] at hr'len1 hlong
            simp only [List.length_nil] at hr'len1 hlong
            omega
          rw [getLast?_cons_of_ne_nil _ _ hne]
          exact hr'last (by omega)
/-- Totality of the addition loop without any limb invariant: the
uint64_t wrap bounds every sum below 2^64, so the carry after any step
is at most (2^64 - 1) / R = 18 and clears in one extra step once both
lists are exhausted. -/
theorem addLoop_total : ∀ (fuel : ℕ) (a b : List ℕ) (c : ℕ), c ≤ 18 →
    max a.length b.length + 2 ≤ fuel → ∃ r, addLoop fuel a b c = some r := by
  intro fuel
  induction fuel with
  | zero => intro a b c _ hf; omega
  | succ f ih =>
    intro a b c hc hf
    by_cases hexit : a = [] ∧ b = [] ∧ c = 0
    · obtain ⟨h1, h2, h3⟩ := hexit
      subst h1; subst h2; subst h3
      exact ⟨[], addLoop_exit _⟩
    · rw [addLoop_step f a b c hexit]
      by_cases hnil : a = [] ∧ b = []
      · obtain ⟨h1, h2⟩ := hnil
        subst h1; subst h2
        simp only [List.headD_nil, List.tail_nil, Nat.zero_add]
        rw [Nat.mod_eq_of_lt (show c < W64 by norm_num [W64]; omega)]
        rw [Nat.div_eq_of_lt (show c < R by norm_num [R]; omega), addLoop_exit]
        exact ⟨[c % R], rfl⟩
      · have hcarry : ((a.headD 0 + b.headD 0 + c) % W64) / R ≤ 18 := by
          have hm : (a.headD 0 + b.headD 0 + c) % W64 ≤ W64 - 1 := by
            have := Nat.mod_lt (a.headD 0 + b.headD 0 + c)
              (show 0 < W64 by norm_num [W64])
            omega
          calc ((a.headD 0 + b.headD 0 + c) % W64) / R
              ≤ (W64 - 1) / R := Nat.div_le_div_right hm
            _ = 18 := by norm_num [W64, R]
        obtain ⟨r', hr'⟩ := ih a.tail b.tail _ hcarry
          (by have := max_tail_length a b hnil; omega)
        rw [hr']
        exact ⟨_, rfl⟩

/-- Divergence of the subtraction loop: when the minuend's value is
strictly below the subtrahend's value plus the borrow, the borrow can
never clear, so the loop never reaches its exit condition. -/
theorem subLoop_div : ∀ (fuel : ℕ) (a b : List ℕ) (br : ℕ),
    (∀ x ∈ a, x < R) → (∀ x ∈ b, x < R) → br ≤ 1 →
    valueR R a < valueR R b + br →
    subLoop fuel a b br = none := by
  intro fuel
  induction fuel with
  | zero =>
    intro a b br ha hb hbr hord
    have hexit : ¬(a = [] ∧ b = [] ∧ br = 0) := by
      rintro ⟨h1, h2, h3⟩
      subst h1; subst h2; subst h3
      simp [valueR] at hord
    exact subLoop_zero a b br hexit
  | succ f ih =>
    intro a b br ha hb hbr hord
    have hexit : ¬(a = [] ∧ b = [] ∧ br = 0) := by
      rintro ⟨h1, h2, h3⟩
      subst h1; subst h2; subst h3
      simp [valueR] at hord
    have hva := valueR_headD_tail a
    have hvb := valueR_headD_tail b
    have hA := headD_lt_R a ha
    have hB := headD_lt_R b hb
    by_cases hd : ((a.headD 0 : ℤ) - (b.headD 0 : ℤ) - (br : ℤ)) < 0
    · rw [subLoop_step_borrow f a b br hexit hd]
      have htord : valueR R a.tail < valueR R b.tail + 1 := by
        by_contra hcon
        push_neg at hcon
        have : R * (valueR R b.tail + 1) ≤ R * valueR R a.tail :=
          Nat.mul_le_mul_left R hcon
        have hexp : R * (valueR R b.tail + 1) = R * valueR R b.tail + R := by ring
        omega
      rw [ih a.tail b.tail 1 (tail_bound a ha) (tail_bound b hb) (by omega) htord]
      rfl
    · rw [subLoop_step_noborrow f a b br hexit hd]
      push_neg at hd
      have hd' : b.headD 0 + br ≤ a.headD 0 := by omega
      have htord : valueR R a.tail < valueR R b.tail := by
        by_contra hcon
        push_neg at hcon
        have : R * valueR R b.tail ≤ R * valueR R a.tail :=
          Nat.mul_le_mul_left R hcon
        omega
      rw [ih a.tail b.tail 0 (tail_bound a ha) (tail_bound b hb) (by omega) htord]
      rfl

/-- Uniqueness of the limb representation: two lists of the same length
whose limbs satisfy the invariant and whose values agree are equal. -/
theorem valueR_inj : ∀ (l1 l2 : List ℕ), l1.length = l2.length →
    (∀ x ∈ l1, x < R) → (∀ x ∈ l2, x < R) →
    valueR R l1 = valueR R l2 → l1 = l2 := by
  intro l1
  induction l1 with
  | nil =>
    intro l2 hlen _ _ _
    cases l2 with
    | nil => rfl
    | cons y ys => simp at hlen
  | cons x xs ih =>
    intro l2 hlen h1 h2 hval
    cases l2 with
    | nil => simp at hlen
    | cons y ys =>
      have hx : x < R := h1 x (by simp)
      have hy : y < R := h2 y (by simp)
      simp only [valueR_cons] at hval
      have hmx : (x + R * valueR R xs) % R = x := by
        rw [Nat.add_mul_mod_self_left, Nat.mod_eq_of_lt hx]
      have hmy : (y + R * valueR R ys) % R = y := by
        rw [Nat.add_mul_mod_self_left, Nat.mod_eq_of_lt hy]
      have hxy : x = y := by rw [← hmx, ← hmy, hval]
      subst hxy
      have hvv : valueR R xs = valueR R ys :=
        Nat.eq_of_mul_eq_mul_left R_pos (by omega)
      have hxs : xs = ys := ih ys (by simpa using hlen)
        (fun z hz => h1 z (List.mem_cons_of_mem _ hz))
        (fun z hz => h2 z (List.mem_cons_of_mem _ hz)) hvv
      rw [hxs]

/-- Upper bound: a list of limbs below R has value below R to its length. -/
theorem valueR_lt_pow : ∀ (l : List ℕ), (∀ x ∈ l, x < R) →
    valueR R l < R ^ l.length := by
  intro l
  induction l with
  | nil => intro _; simp [valueR]
  | cons x xs ih =>
    intro h
    have hx : x < R := h x (by simp)
    have hxs := ih (fun z hz => h z (List.mem_cons_of_mem _ hz))
    have h2 : R * (valueR R xs + 1) ≤ R * R ^ xs.length :=
      Nat.mul_le_mul_left R hxs
    have h3 : R * (valueR R xs + 1) = R * valueR R xs + R := by ring
    have h4 : R * R ^ xs.length = R ^ (x :: xs).length := by
      simp only [List.length_cons]
      ring
    simp only [valueR_cons]
    omega

/-- The top limb is nonzero exactly when the value reaches the radix
power one below the length. -/
theorem valueR_top_iff : ∀ (l : List ℕ), l ≠ [] → (∀ x ∈ l, x < R) →
    (R ^ (l.length - 1) ≤ valueR R l ↔ l.getLast? ≠ some 0) := by
  intro l
  induction l with
  | nil => intro h _; exact absurd rfl h
  | cons x xs ih =>
    intro _ hb
    cases xs with
    | nil =>
      simp only [List.length_cons, List.length_nil, Nat.add_sub_cancel, pow_zero,
        List.getLast?_singleton, valueR_cons, valueR_nil]
      constructor
      · intro h1 hc
        have : x = 0 := Option.some.inj hc
        omega
      · intro h1
        have : x ≠ 0 := fun hc => h1 (by rw [hc])
        omega
    | cons y ys =>
      have hrec := ih (by simp)
        (fun z hz => hb z (List.mem_cons_of_mem _ hz))
      have hlast : (x :: y :: ys).getLast? = (y :: ys).getLast? :=
        List.getLast?_cons_cons
      rw [hlast, ← hrec]
      have hx : x < R := hb x (by simp)
      have hn : (x :: y :: ys).length - 1 = (y :: ys).length := by simp
      rw [hn]
      have hpow : R ^ (y :: ys).length = R * R ^ ((y :: ys).length - 1) := by
        conv_lhs => rw [show (y :: ys).length = ((y :: ys).length - 1) + 1 by simp]
        rw [pow_succ]
        ring
      have hvc : valueR R (x :: y :: ys) = x + R * valueR R (y :: ys) :=
        valueR_cons x (y :: ys)
      constructor
      · intro h1
        by_contra hcon
        push_neg at hcon
        have h5 : valueR R (y :: ys) + 1 ≤ R ^ ((y :: ys).length - 1) := hcon
        have h6 : R * (valueR R (y :: ys) + 1) ≤ R * R ^ ((y :: ys).length - 1) :=
          Nat.mul_le_mul_left R h5
        have h7 : R * (valueR R (y :: ys) + 1) = R * valueR R (y :: ys) + R := by ring
        omega
      · intro h1
        have h6 : R * R ^ ((y :: ys).length - 1) ≤ R * valueR R (y :: ys) :=
          Nat.mul_le_mul_left R h1
        omega

/-- Soundness of the subtraction loop under the precondition: limbs
satisfy the invariant, the borrow is 0 or 1, and the minuend's value
covers the subtrahend's value plus the borrow.  The loop then terminates
within max(len a, len b) iterations, the result value satisfies
value r + value b + borrow = value a, the result limbs satisfy the
invariant, and the result length is exactly max(len a, len b). -/
theorem subLoop_sound : ∀ (fuel : ℕ) (a b : List ℕ) (br : ℕ),
    (∀ x ∈ a, x < R) → (∀ x ∈ b, x < R) → br ≤ 1 →
    valueR R b + br ≤ valueR R a →
    max a.length b.length ≤ fuel →
    ∃ r, subLoop fuel a b br = some r ∧
      valueR R r + valueR R b + br = valueR R a ∧
      (∀ x ∈ r, x < R) ∧
      r.length = max a.length b.length := by
  intro fuel
  induction fuel with
  | zero =>
    intro a b br ha hb hbr hord hf
    have hab : a.length = 0 ∧ b.length = 0 := by omega
    have ha0 : a = [] := List.eq_nil_of_length_eq_zero hab.1
    have hb0 : b = [] := List.eq_nil_of_length_eq_zero hab.2
    subst ha0; subst hb0
    have hbr0 : br = 0 := by simpa [valueR] using hord
    subst hbr0
    exact ⟨[], subLoop_exit 0, by simp [valueR], by simp, by simp⟩
  | succ f ih =>
    intro a b br ha hb hbr hord hf
    by_cases hexit : a = [] ∧ b = [] ∧ br = 0
    · obtain ⟨h1, h2, h3⟩ := hexit
      subst h1; subst h2; subst h3
      exact ⟨[], subLoop_exit _, by simp [valueR], by simp, by simp⟩
    · have hnil : ¬(a = [] ∧ b = []) := by
        rintro ⟨h1, h2⟩
        subst h1; subst h2
        have : br = 0 := by simpa [valueR] using hord
        exact hexit ⟨rfl, rfl, this⟩
      have hva := valueR_headD_tail a
      have hvb := valueR_headD_tail b
      have hA := headD_lt_R a ha
      have hB := headD_lt_R b hb
      have hmt := max_tail_length a b hnil
      by_cases hd : ((a.headD 0 : ℤ) - (b.headD 0 : ℤ) - (br : ℤ)) < 0
      · have hd' : a.headD 0 < b.headD 0 + br := by omega
        have htord : valueR R b.tail + 1 ≤ valueR R a.tail := by
          by_contra hcon
          push_neg at hcon
          have hle : valueR R a.tail ≤ valueR R b.tail := by omega
          have : R * valueR R a.tail ≤ R * valueR R b.tail :=
            Nat.mul_le_mul_left R hle
          omega
        obtain ⟨r', hr'eq, hr'val, hr'lt, hr'len⟩ :=
          ih a.tail b.tail 1 (tail_bound a ha) (tail_bound b hb) le_rfl htord
            (by omega)
        rw [subLoop_step_borrow f a b br hexit hd, hr'eq]
        have he : (((a.headD 0 : ℤ) - (b.headD 0 : ℤ) - (br : ℤ) + (R : ℤ)).toNat)
            = a.headD 0 + R - b.headD 0 - br := by omega
        refine ⟨_, rfl, ?_, ?_, ?_⟩
        · simp only [valueR_cons]
          rw [he]
          have hmul : R * valueR R r' + R * valueR R b.tail + R
              = R * valueR R a.tail := by
            calc R * valueR R r' + R * valueR R b.tail + R
                = R * (valueR R r' + valueR R b.tail + 1) := by ring
              _ = R * valueR R a.tail := by rw [hr'val]
          omega
        · intro x hx
          rcases List.mem_cons.mp hx with h1 | h1
          · rw [h1, he]; omega
          · exact hr'lt x h1
        · simp only [List.length_cons, hr'len]
          omega
      · have hd' : b.headD 0 + br ≤ a.headD 0 := by
          push_neg at hd
          omega
        have htord : valueR R b.tail ≤ valueR R a.tail := by
          by_contra hcon
          push_neg at hcon
          have h6 : R * (valueR R a.tail + 1) ≤ R * valueR R b.tail :=
            Nat.mul_le_mul_left R (by omega)
          have h7 : R * (valueR R a.tail + 1) = R * valueR R a.tail + R := by ring
          omega
        obtain ⟨r', hr'eq, hr'val, hr'lt, hr'len⟩ :=
          ih a.tail b.tail 0 (tail_bound a ha) (tail_bound b hb) (by omega)
            (by omega) (by omega)
        rw [subLoop_step_noborrow f a b br hexit hd, hr'eq]
        have he : (((a.headD 0 : ℤ) - (b.headD 0 : ℤ) - (br : ℤ)).toNat)
            = a.headD 0 - b.headD 0 - br := by omega
        refine ⟨_, rfl, ?_, ?_, ?_⟩
        · simp only [valueR_cons]
          rw [he]
          have h0 : valueR R r' + valueR R b.tail = valueR R a.tail := by omega
          have hmul : R * valueR R r' + R * valueR R b.tail
              = R * valueR R a.tail := by
            calc R * valueR R r' + R * valueR R b.tail
                = R * (valueR R r' + valueR R b.tail) := by ring
              _ = R * valueR R a.tail := by rw [h0]
          omega
        · intro x hx
          rcases List.mem_cons.mp hx with h1 | h1
          · rw [h1, he]; omega
          · exact hr'lt x h1
        · simp only [List.length_cons, hr'len]
          omega

/-! Lemmas about the decimal codec. -/

theorem chunksLSAux_nil (f : ℕ) : chunksLSAux f [] = [] := by
  cases f <;> simp [chunksLSAux]

/-- A string of at most 19 characters is a single chunk. -/
theorem chunksLS_short (cs : List Char) (h1 : cs ≠ []) (h2 : cs.length ≤ 19) :
    chunksLS cs = [cs] := by
  unfold chunksLS
  obtain ⟨n, hn⟩ : ∃ n, cs.length = n + 1 := by
    cases cs with
    | nil => exact absurd rfl h1
    | cons c cs' => exact ⟨cs'.length, rfl⟩
  rw [hn, chunksLSAux, if_neg h1]
  have hmin : min cs.length 19 = cs.length := min_eq_left h2
  rw [hmin, Nat.sub_self, List.drop_zero, List.take_zero, chunksLSAux_nil]

/-- Closed form of the digit-prefix fold on an all-digit string. -/
theorem digPrefixVal_all (cs : List Char) (h : ∀ c ∈ cs, isDig c = true) :
    ∀ acc : ℕ, digPrefixVal cs acc
      = acc * 10 ^ cs.length + Nat.ofDigits 10 ((cs.map charVal).reverse) := by
  induction cs with
  | nil => intro acc; simp [digPrefixVal, Nat.ofDigits_nil]
  | cons c cs ih =>
    intro acc
    have hc : isDig c = true := h c (by simp)
    simp only [digPrefixVal, hc, if_pos]
    rw [ih (fun z hz => h z (List.mem_cons_of_mem _ hz))]
    simp only [List.map_cons, List.reverse_cons, List.length_cons]
    rw [Nat.ofDigits_append, Nat.ofDigits_singleton]
    have hlen : ((cs.map charVal).reverse).length = cs.length := by simp
    rw [hlen]
    ring

/-- A digit character is neither sign character. -/
theorem isDig_ne_sign (c : Char) (h : isDig c = true) : c ≠ '-' ∧ c ≠ '+' := by
  constructor <;> intro hc <;> rw [hc] at h <;> exact absurd h (by decide)

/-- A chunk starting with a digit converts to its digit-prefix value:
the sign branches of stoull do not fire. -/
theorem stoullM_head_digit (c : Char) (cs : List Char) (hc : isDig c = true) :
    stoullM (c :: cs) = some (digPrefixVal (c :: cs) 0) := by
  have hs := isDig_ne_sign c hc
  simp only [stoullM, stoullDigits]
  rw [if_neg hs.1, if_neg hs.2, if_pos hc]

theorem stoullM_digits (cs : List Char) (h1 : cs ≠ [])
    (h2 : ∀ c ∈ cs, isDig c = true) :
    stoullM cs = some (digPrefixVal cs 0) := by
  cases cs with
  | nil => exact absurd rfl h1
  | cons c cs' => exact stoullM_head_digit c cs' (h2 c (by simp))

theorem digitsVal_eq_digPrefixVal (cs : List Char)
    (h : ∀ c ∈ cs, isDig c = true) : digitsVal cs = digPrefixVal cs 0 := by
  have haux : ∀ (ds : List Char) (acc : ℕ), (∀ c ∈ ds, isDig c = true) →
      List.foldl (fun n c => n * 10 + charVal c) acc ds = digPrefixVal ds acc := by
    intro ds
    induction ds with
    | nil => intro acc _; simp [digPrefixVal]
    | cons c cs' ih =>
      intro acc hd
      have hc : isDig c = true := hd c (by simp)
      simp only [List.foldl_cons, digPrefixVal, hc, if_pos]
      exact ih _ (fun z hz => hd z (List.mem_cons_of_mem _ hz))
  exact haux cs 0 h

/-- Digit characters have value below 10. -/
theorem charVal_lt_ten (c : Char) (h : isDig c = true) : charVal c < 10 := by
  have := of_decide_eq_true h
  unfold charVal
  omega

/-- Rebuilding a digit character from its value gives the character back. -/
theorem ofNat_charVal (c : Char) (h : isDig c = true) :
    Char.ofNat (48 + charVal c) = c := by
  have hb := of_decide_eq_true h
  have h48 : 48 + charVal c = c.toNat := by
    unfold charVal
    omega
  rw [h48, Char.ofNat_toNat]

/-- A digit character with value zero is the character '0'. -/
theorem charVal_zero_eq (c : Char) (h : isDig c = true) (hz : charVal c = 0) :
    c = '0' := by
  have hb := of_decide_eq_true h
  have h48 : c.toNat = 48 := by
    unfold charVal at hz
    omega
  have : Char.ofNat c.toNat = Char.ofNat 48 := by rw [h48]
  rw [Char.ofNat_toNat] at this
  exact this

/-- The fueled digit renderer agrees with Nat.digits once the fuel covers
the number. -/
theorem natCharsAux_digits : ∀ (f n : ℕ), n ≤ f →
    natCharsAux f n = (Nat.digits 10 n).map (fun d => Char.ofNat (48 + d)) := by
  intro f
  induction f with
  | zero =>
    intro n hn
    have : n = 0 := by omega
    subst this
    simp [natCharsAux]
  | succ f ih =>
    intro n hn
    cases n with
    | zero => simp [natCharsAux]
    | succ m =>
      have hd := Nat.digits_def' (show (1 : ℕ) < 10 by norm_num)
        (Nat.succ_pos m)
      rw [natCharsAux, hd, List.map_cons]
      have hdiv : (m + 1) / 10 ≤ f := by
        have := Nat.div_lt_self (Nat.succ_pos m) (show (1 : ℕ) < 10 by norm_num)
        omega
      rw [ih _ hdiv]

/-- Rendering the value of a canonical all-digit string (nonempty, no
leading zero, nonzero) reproduces the string. -/
theorem natChars_roundtrip (cs : List Char) (h1 : cs ≠ [])
    (h2 : ∀ c ∈ cs, isDig c = true) (h3 : cs.head? ≠ some '0') :
    natChars (Nat.ofDigits 10 ((cs.map charVal).reverse)) = cs := by
  obtain ⟨c0, cs', hcs⟩ : ∃ c0 cs', cs = c0 :: cs' := by
    cases cs with
    | nil => exact absurd rfl h1
    | cons x xs => exact ⟨x, xs, rfl⟩
  have hL1 : ∀ d ∈ (cs.map charVal).reverse, d < 10 := by
    intro d hd
    rw [List.mem_reverse] at hd
    obtain ⟨c, hc, hdc⟩ := List.mem_map.mp hd
    rw [← hdc]
    exact charVal_lt_ten c (h2 c hc)
  have hLne : (cs.map charVal).reverse ≠ [] := by
    subst hcs; simp
  have hL2 : ∀ h : (cs.map charVal).reverse ≠ [],
      ((cs.map charVal).reverse).getLast h ≠ 0 := by
    intro hne
    subst hcs
    simp only [List.map_cons, List.reverse_cons]
    rw [List.getLast_concat]
    intro hzero
    exact h3 (by rw [charVal_zero_eq c0 (h2 c0 (by simp)) hzero]; rfl)
  have hdig := Nat.digits_ofDigits 10 (by norm_num) _ hL1 hL2
  have hvne : Nat.ofDigits 10 ((cs.map charVal).reverse) ≠ 0 := by
    intro hz
    rw [hz, Nat.digits_zero] at hdig
    exact hLne hdig.symm
  unfold natChars
  rw [if_neg hvne]
  rw [natCharsAux_digits _ _ le_rfl, hdig]
  rw [List.map_reverse, List.reverse_reverse, List.map_map]
  have hid : List.map ((fun d => Char.ofNat (48 + d)) ∘ charVal) cs
      = List.map id cs :=
    List.map_congr_left (fun c hc => ofNat_charVal c (h2 c hc))
  rw [hid, List.map_id]

/-- A normalized list of at least two limbs has a nonzero top limb, so
its value reaches the radix power below its length. -/
theorem normalized_value_ge (l : List ℕ) (hb : ∀ x ∈ l, x < R)
    (hn : normalized l) (hlen : 2 ≤ l.length) :
    R ^ (l.length - 1) ≤ valueR R l := by
  rcases hn with h | h
  · have hne : l ≠ [] := by
      intro hc
      rw [hc] at hlen
      simp at hlen
    exact (valueR_top_iff l hne hb).mpr h
  · rw [h] at hlen
    simp at hlen

/-- Positive length of a nonempty list, in arithmetic form. -/
theorem length_pos_of_ne_nil (l : List ℕ) (h : l ≠ []) : 1 ≤ l.length := by
  cases l with
  | nil => exact absurd rfl h
  | cons x xs => simp

/-- Claim C1: for every pair of limb lists a and b satisfying the limb
invariant (every limb in [0, R)), the addition operator returns a result
whose value at radix R is value a + value b, with missing limbs of the
shorter operand treated as 0 and a final nonzero carry appending one
extra limb; the result again satisfies the limb invariant. -/
theorem C1_add_value (a b : List ℕ) (ha : ∀ x ∈ a, x < R)
    (hb : ∀ x ∈ b, x < R) :
    ∃ r, add a b = some r ∧ valueR R r = valueR R a + valueR R b ∧
      ∀ x ∈ r, x < R := by
  obtain ⟨r, h1, h2, h3, _, _, _⟩ :=
    addLoop_sound (max a.length b.length + 2) a b 0 ha hb (by omega) le_rfl
  exact ⟨r, h1, by omega, h3⟩

theorem C1_add_value_witness :
    (∀ x ∈ [999999999999999999], x < R) ∧ (∀ x ∈ [1], x < R) ∧
    ∃ r, add [999999999999999999] [1] = some r ∧
      valueR R r = valueR R [999999999999999999] + valueR R [1] ∧
      ∀ x ∈ r, x < R :=
  ⟨by decide, by decide,
    C1_add_value [999999999999999999] [1] (by decide) (by decide)⟩

/-- Claim C2, counterexample: on the spec scenario subtract(5, 10) the
subtraction operator does not signal any error: it has no error path at
all, and its loop never terminates, so it returns nothing whatsoever. -/
theorem C2_subtract_no_error_counterexample : subDiverges [5] [10] :=
  fun fuel => subLoop_div fuel [5] [10] 0 (by decide) (by decide) (by decide)
    (by decide)

/-- Claim C2, amended: when value a < value b (limb invariant assumed),
the subtraction operator never returns: the borrow never clears and the
loop runs forever.  In particular it never silently returns a wrapped or
clamped value, but it also never signals NegativeResult - the program
has no error reporting. -/
theorem C2_subtract_diverges (a b : List ℕ) (ha : ∀ x ∈ a, x < R)
    (hb : ∀ x ∈ b, x < R) (hlt : valueR R a < valueR R b) :
    subDiverges a b :=
  fun fuel => subLoop_div fuel a b 0 ha hb (by omega) (by omega)

theorem C2_subtract_diverges_witness :
    (∀ x ∈ [3], x < R) ∧ (∀ x ∈ [7], x < R) ∧
    valueR R [3] < valueR R [7] ∧ subDiverges [3] [7] :=
  ⟨by decide, by decide, by decide,
    C2_subtract_diverges [3] [7] (by decide) (by decide) (by decide)⟩

/-- Claim C3: on the spec-modelled Miller-Rabin engine, for every trial
count k of at least 1 and every base sequence, 2 and 3 are reported
Prime, every n at most 1 is reported Composite, and every even n above 3
is reported Composite; the verdicts do not depend on the drawn bases. -/
theorem C3_trivial_cases (k : ℕ) (bases : ℕ → ℕ) (hk : 1 ≤ k) :
    is_probably_prime 2 k bases = .ok .Prime ∧
    is_probably_prime 3 k bases = .ok .Prime ∧
    (∀ n, n ≤ 1 → is_probably_prime n k bases = .ok .Composite) ∧
    (∀ n, 3 < n → n % 2 = 0 → is_probably_prime n k bases = .ok .Composite) := by
  refine ⟨?_, ?_, ?_, ?_⟩
  · unfold is_probably_prime
    rw [if_neg (by omega : ¬ k < 1), if_pos (Or.inl rfl)]
  · unfold is_probably_prime
    rw [if_neg (by omega : ¬ k < 1), if_pos (Or.inr rfl)]
  · intro n hn
    unfold is_probably_prime
    rw [if_neg (by omega : ¬ k < 1), if_neg (by omega : ¬(n = 2 ∨ n = 3)),
      if_pos (Or.inl hn)]
  · intro n h3 he
    unfold is_probably_prime
    rw [if_neg (by omega : ¬ k < 1), if_neg (by omega : ¬(n = 2 ∨ n = 3)),
      if_pos (Or.inr he)]

theorem C3_trivial_cases_witness :
    (1 : ℕ) ≤ 1 ∧
    is_probably_prime 2 1 (fun _ => 2) = .ok .Prime ∧
    is_probably_prime 1 1 (fun _ => 2) = .ok .Composite ∧
    is_probably_prime 4 1 (fun _ => 2) = .ok .Composite :=
  ⟨le_rfl, (C3_trivial_cases 1 (fun _ => 2) le_rfl).1,
    (C3_trivial_cases 1 (fun _ => 2) le_rfl).2.2.1 1 (by decide),
    (C3_trivial_cases 1 (fun _ => 2) le_rfl).2.2.2 4 (by decide) (by decide)⟩

/-- Claim C4: the radix is not 10^19 throughout.  The program parses the
19-digit string for 10^18 into the single limb 10^18 = R (so chunking
uses 19-digit groups), yet adding that number to zero carries at 10^18:
the carry divisor literal has eighteen zeros, so the sum 10^18 is split
into limb 0 and carry 1 instead of staying the single limb 10^18 that a
10^19 radix would give. -/
theorem C4_radix_mismatch :
    splitNumberIntoChunks "1000000000000000000".toList = .ok [R] ∧
    add [R] [0] = some [0, 1] ∧ [0, 1] ≠ [R] := by
  refine ⟨by decide, by decide, by decide⟩

/-- Claim C5: for limb lists a and b satisfying the limb invariant with
value b ≤ value a, the subtraction operator returns a result whose value
is value a - value b, using borrow propagation (a negative limb
difference has R added and carries a borrow of 1); the result satisfies
the limb invariant. -/
theorem C5_subtract_value (a b : List ℕ) (ha : ∀ x ∈ a, x < R)
    (hb : ∀ x ∈ b, x < R) (hord : valueR R b ≤ valueR R a) :
    ∃ r, subtract a b = some r ∧ valueR R r = valueR R a - valueR R b ∧
      ∀ x ∈ r, x < R := by
  obtain ⟨r, h1, h2, h3, _⟩ :=
    subLoop_sound (max a.length b.length + 1) a b 0 ha hb (by omega)
      (by omega) (by omega)
  exact ⟨r, h1, by omega, h3⟩

theorem C5_subtract_value_witness :
    (∀ x ∈ [100], x < R) ∧ (∀ x ∈ [1], x < R) ∧
    valueR R [1] ≤ valueR R [100] ∧
    ∃ r, subtract [100] [1] = some r ∧
      valueR R r = valueR R [100] - valueR R [1] ∧ ∀ x ∈ r, x < R :=
  ⟨by decide, by decide, by decide,
    C5_subtract_value [100] [1] (by decide) (by decide) (by decide)⟩

/-- Claim C6, counterexample: the round trip fails already on "5": the
print routine writes a space after every limb, so parsing "5" and
printing gives "5 ", not "5".  (On multi-limb numbers it additionally
loses the zero padding of inner limbs.) -/
theorem C6_roundtrip_counterexample :
    splitNumberIntoChunks "5".toList = .ok [5] ∧
    printRecursive [5] = "5 ".toList ∧ "5 ".toList ≠ "5".toList := by
  refine ⟨by decide, by decide, by decide⟩

/-- Claim C6, amended: the print routine emits limbs most-significant
first, each rendered without zero padding and followed by one space, so
for a decimal string of at most 19 digits with no superfluous leading
zeros the round trip returns the string with a trailing space appended
(instead of the string itself, as the claim stated). -/
theorem C6_roundtrip_amended (cs : List Char) (h1 : cs ≠ [])
    (h2 : ∀ c ∈ cs, isDig c = true) (h3 : cs.head? = some '0' → cs = ['0'])
    (h4 : cs.length ≤ 19) :
    splitNumberIntoChunks cs = .ok [digitsVal cs] ∧
    printRecursive [digitsVal cs] = cs ++ [' '] := by
  have hparse : splitNumberIntoChunks cs = .ok [digPrefixVal cs 0] := by
    unfold splitNumberIntoChunks
    rw [chunksLS_short cs h1 h4]
    unfold chunksToLimbs
    rw [stoullM_digits cs h1 h2]
    rfl
  have hdv := digitsVal_eq_digPrefixVal cs h2
  constructor
  · rw [hdv]
    exact hparse
  · have hpr : ∀ v : ℕ, printRecursive [v] = natChars v ++ [' '] := by
      intro v
      simp [printRecursive]
    by_cases hz : cs = ['0']
    · subst hz
      decide
    · have hh3 : cs.head? ≠ some '0' := fun hc => hz (h3 hc)
      have hval : digitsVal cs = Nat.ofDigits 10 ((cs.map charVal).reverse) := by
        rw [hdv, digPrefixVal_all cs h2 0]
        simp
      rw [hval, hpr, natChars_roundtrip cs h1 h2 hh3]

theorem C6_roundtrip_amended_witness :
    "97".toList ≠ [] ∧ (∀ c ∈ "97".toList, isDig c = true) ∧
    ("97".toList.head? = some '0' → "97".toList = ['0']) ∧
    "97".toList.length ≤ 19 ∧
    (splitNumberIntoChunks "97".toList = .ok [digitsVal "97".toList] ∧
     printRecursive [digitsVal "97".toList] = "97".toList ++ [' ']) :=
  ⟨by decide, by decide, by decide, by decide,
    C6_roundtrip_amended "97".toList (by decide) (by decide) (by decide)
      (by decide)⟩

/-- Claim C8, counterexample: subtraction performs no stripping of
most-significant zero limbs: subtracting 5 from the two-limb number
R (limbs [0, 1]) returns the limbs [R - 5, 0], which carry a trailing
zero limb and are not the representation of zero. -/
theorem C8_normalized_counterexample :
    subtract [0, 1] [5] = some [999999999999999995, 0] ∧
    ¬ normalized [999999999999999995, 0] := by
  constructor
  · decide
  · intro h
    rcases h with h | h
    · exact h (by decide)
    · exact absurd h (by decide)

/-- Claim C8, amended: addition of normalized operands satisfying the
limb invariant produces a normalized result (a final carry limb is
nonzero, and otherwise the top limb inherits a nonzero top limb of the
longer operand); subtraction, however, does no stripping and can return
trailing zero limbs, as the counterexample shows. -/
theorem C8_add_normalized (a b : List ℕ) (ha : ∀ x ∈ a, x < R)
    (hb : ∀ x ∈ b, x < R) (hna : normalized a) (hnb : normalized b) :
    ∃ r, add a b = some r ∧ normalized r ∧ ∀ x ∈ r, x < R := by
  obtain ⟨r, h1, h2, h3, h4, h5, h6⟩ :=
    addLoop_sound (max a.length b.length + 2) a b 0 ha hb (by omega) le_rfl
  refine ⟨r, h1, ?_, h3⟩
  rcases Nat.lt_or_ge (max a.length b.length) r.length with hlong | hshort
  · exact Or.inl (h6 hlong)
  · have hrlen : r.length = max a.length b.length := le_antisymm hshort h4
    by_cases hm0 : max a.length b.length = 0
    · have hr0 : r = [] := List.eq_nil_of_length_eq_zero (by omega)
      rw [hr0]
      exact Or.inl (by simp)
    · by_cases hm1 : max a.length b.length = 1
      · by_cases hval0 : valueR R a + valueR R b = 0
        · refine Or.inr (valueR_inj r [0] ?_ h3 ?_ ?_)
          · rw [hrlen, hm1]
            rfl
          · intro x hx
            simp only [List.mem_singleton] at hx
            subst hx
            exact R_pos
          · have : valueR R [0] = 0 := by simp [valueR]
            omega
        · have hrne : r ≠ [] := by
            intro hc
            rw [hc] at hrlen
            simp at hrlen
            omega
          refine Or.inl ((valueR_top_iff r hrne h3).mp ?_)
          rw [hrlen, hm1]
          simpa using (by omega : 1 ≤ valueR R r)
      · have hm2 : 2 ≤ max a.length b.length := by omega
        have hge : R ^ (max a.length b.length - 1)
            ≤ valueR R a + valueR R b := by
          rcases max_choice a.length b.length with hc | hc
          · have hav := normalized_value_ge a ha hna (by omega)
            calc R ^ (max a.length b.length - 1)
                = R ^ (a.length - 1) := by rw [hc]
              _ ≤ valueR R a := hav
              _ ≤ valueR R a + valueR R b := Nat.le_add_right _ _
          · have hbv := normalized_value_ge b hb hnb (by omega)
            calc R ^ (max a.length b.length - 1)
                = R ^ (b.length - 1) := by rw [hc]
              _ ≤ valueR R b := hbv
              _ ≤ valueR R a + valueR R b := Nat.le_add_left _ _
        have hrne : r ≠ [] := by
          intro hc
          rw [hc] at hrlen
          simp at hrlen
          omega
        refine Or.inl ((valueR_top_iff r hrne h3).mp ?_)
        rw [hrlen]
        omega

theorem C8_add_normalized_witness :
    (∀ x ∈ [7], x < R) ∧ (∀ x ∈ [9, 1], x < R) ∧
    normalized [7] ∧ normalized [9, 1] ∧
    ∃ r, add [7] [9, 1] = some r ∧ normalized r ∧ ∀ x ∈ r, x < R :=
  ⟨by decide, by decide, Or.inl (by decide), Or.inl (by decide),
    C8_add_normalized [7] [9, 1] (by decide) (by decide)
      (Or.inl (by decide)) (Or.inl (by decide))⟩

/-- Claim C9: for nonempty normalized limb lists a and b satisfying the
limb invariant with value b ≤ value a, adding b back to the difference
a - b reproduces a exactly, limb for limb. -/
theorem C9_inverse_law (a b : List ℕ) (hane : a ≠ []) (hbne : b ≠ [])
    (ha : ∀ x ∈ a, x < R) (hb : ∀ x ∈ b, x < R)
    (_hna : normalized a) (hnb : normalized b)
    (hord : valueR R b ≤ valueR R a) :
    ∃ d r, subtract a b = some d ∧ add d b = some r ∧ r = a := by
  have hapos : 1 ≤ a.length := length_pos_of_ne_nil a hane
  have hbpos : 1 ≤ b.length := length_pos_of_ne_nil b hbne
  have hlab : b.length ≤ a.length := by
    rcases hnb with hgb | hb0
    · have hv1 : R ^ (b.length - 1) ≤ valueR R b :=
        (valueR_top_iff b hbne hb).mpr hgb
      have hv2 : valueR R a < R ^ a.length := valueR_lt_pow a ha
      have hv3 : R ^ (b.length - 1) < R ^ a.length := by omega
      have hv4 : b.length - 1 < a.length := by
        by_contra hcon
        push_neg at hcon
        have := Nat.pow_le_pow_right (le_of_lt one_lt_R) hcon
        omega
      omega
    · rw [hb0]
      simpa using hapos
  have hmax : max a.length b.length = a.length := max_eq_left hlab
  obtain ⟨d, hd1, hd2, hd3, hd4⟩ :=
    subLoop_sound (max a.length b.length + 1) a b 0 ha hb (by omega)
      (by omega) (by omega)
  have hdlen : d.length = a.length := by rw [hd4, hmax]
  obtain ⟨r, hr1, hr2, hr3, hr4, hr5, hr6⟩ :=
    addLoop_sound (max d.length b.length + 2) d b 0 hd3 hb (by omega) le_rfl
  have hmax2 : max d.length b.length = a.length := by
    rw [hdlen]
    exact max_eq_left hlab
  have hvr : valueR R r = valueR R a := by omega
  have hrlen : r.length = a.length := by
    rcases Nat.lt_or_ge (max d.length b.length) r.length with hl | hsh
    · exfalso
      have hrne : r ≠ [] := by
        intro hc
        rw [hc] at hl
        simp at hl
      have htop := (valueR_top_iff r hrne hr3).mpr (hr6 hl)
      have hlen2 : r.length = a.length + 1 := by omega
      have hbound := valueR_lt_pow a ha
      rw [hlen2] at htop
      simp only [Nat.add_sub_cancel] at htop
      omega
    · omega
  exact ⟨d, r, hd1, hr1, valueR_inj r a (by omega) hr3 ha hvr⟩

theorem C9_inverse_law_witness :
    ([12] : List ℕ) ≠ [] ∧ ([5] : List ℕ) ≠ [] ∧
    (∀ x ∈ [12], x < R) ∧ (∀ x ∈ [5], x < R) ∧
    normalized [12] ∧ normalized [5] ∧ valueR R [5] ≤ valueR R [12] ∧
    ∃ d r, subtract [12] [5] = some d ∧ add d [5] = some r ∧ r = [12] :=
  ⟨by decide, by decide, by decide, by decide, Or.inl (by decide),
    Or.inl (by decide), by decide,
    C9_inverse_law [12] [5] (by decide) (by decide) (by decide) (by decide)
      (Or.inl (by decide)) (Or.inl (by decide)) (by decide)⟩

/-- Claim C10: the addition loop terminates for every pair of limb lists
(the final carry clears at most one iteration after both lists are
exhausted), and the subtraction loop terminates for every pair
satisfying the limb invariant with value b ≤ value a (the borrow is
clear when both lists are exhausted). -/
theorem C10_termination :
    (∀ a b : List ℕ, ∃ r, add a b = some r) ∧
    (∀ a b : List ℕ, (∀ x ∈ a, x < R) → (∀ x ∈ b, x < R) →
      valueR R b ≤ valueR R a → ∃ r, subtract a b = some r) := by
  constructor
  · intro a b
    exact addLoop_total (max a.length b.length + 2) a b 0 (by omega) le_rfl
  · intro a b ha hb hord
    obtain ⟨r, h1, _, _, _⟩ :=
      subLoop_sound (max a.length b.length + 1) a b 0 ha hb (by omega)
        (by omega) (by omega)
    exact ⟨r, h1⟩

theorem C10_termination_witness :
    (∃ r, add [2] [3] = some r) ∧
    (∀ x ∈ [9], x < R) ∧ (∀ x ∈ [4], x < R) ∧
    valueR R [4] ≤ valueR R [9] ∧ ∃ r, subtract [9] [4] = some r :=
  ⟨C10_termination.1 [2] [3], by decide, by decide, by decide,
    C10_termination.2 [9] [4] (by decide) (by decide) (by decide)⟩


